import Mathlib

/-!
Verification of the EnumString repository (apperoso/EnumString).

The source is a C++23 header (`include/EnumString/enum_string.h`) that builds,
at translation time, an array of the member names of a scoped enumeration by
parsing the compiler-synthesised function signature returned by
`std::source_location::current().function_name()`, plus a demo `main.cpp`.

The shallow embedding below models C++ strings as `List Char`, `size_t`
arithmetic as `Nat` modulo `2^64` (so that `npos + 1` wraps to `0`, exactly as
in the source's `find_last_of(':') + 1`), and the throwing
`std::string_view::substr` as an `Option`-returning function.
-/

namespace EnumString

/-- `std::string_view::npos`, i.e. `SIZE_MAX = 2^64 - 1` on the 64-bit
platforms the project targets. -/
def npos : Nat := 2^64 - 1

/-- `size_t` subtraction `a - b` for operands below `2^64`, as used in the
source's `end - start`. -/
def size_sub (a b : Nat) : Nat := (2^64 + a - b) % 2^64

/-- Helper for `find_last_of`: walk the list keeping the index of the last
match seen so far (`acc` starts at `npos`). -/
def findLastAux (s : List Char) (c : Char) (i acc : Nat) : Nat :=
  match s with
  | [] => acc
  | x :: xs => findLastAux xs c (i + 1) (if x = c then i else acc)

/-- `std::string_view::find_last_of(c)`: index of the last occurrence of `c`,
or `npos` when there is none. -/
def find_last_of (s : List Char) (c : Char) : Nat :=
  findLastAux s c 0 npos

/-- Helper for `find_first_of`: index of the first match in `s`, counting from
`i`, or `npos`. -/
def findFirstAux (s : List Char) (c : Char) (i : Nat) : Nat :=
  match s with
  | [] => npos
  | x :: xs => if x = c then i else findFirstAux xs c (i + 1)

/-- `std::string_view::find_first_of(c, pos)`: index of the first occurrence
of `c` at position `pos` or later, or `npos` when there is none. -/
def find_first_of (s : List Char) (c : Char) (pos : Nat) : Nat :=
  findFirstAux (s.drop pos) c pos

/-- `std::string_view::substr(pos, count)`: throws `std::out_of_range` when
`pos > size()` (modelled as `none`), otherwise yields `count` characters from
`pos`, clamped to the end of the view. -/
def substr (s : List Char) (pos count : Nat) : Option (List Char) :=
  if pos ≤ s.length then some ((s.drop pos).take count) else none

/-- `FixedString<Size>` from `enum_string.h` lines 43-54: exact-length
immutable character storage with no terminating NUL; `data_` always has
exactly `Size` characters (the class invariant `Size == extent of data_`). -/
structure FixedString where
  data_ : List Char
deriving DecidableEq, Repr

/-- The `FixedString(char const* str)` constructor: `std::copy_n(str, Size,
data_)` copies exactly `Size` characters from the source buffer the pointer
designates (here, the list of characters readable from the pointer). -/
def FixedString.ofPtr (Size : Nat) (str : List Char) : FixedString :=
  ⟨str.take Size⟩

/-- The `operator std::string_view()` conversion: the read-only view
`{ data_, Size }` of the full buffer. -/
def FixedString.view (f : FixedString) : List Char := f.data_

/-- `toEnumName` from `enum_string.h` lines 111-121:

    constexpr auto start = funcName.find_last_of(':') + 1;
    constexpr auto end = funcName.find_first_of('>', start);
    constexpr auto nameView = funcName.substr(start, end-start);
    return FixedString<nameView.size()>{nameView.data()};

`start` is computed in `size_t`, so a not-found `npos` wraps to `0`; the
`substr` call performs no validation beyond the `pos <= size` check built into
`std::string_view`. -/
def toEnumName (funcName : List Char) : Option FixedString :=
  let start := (find_last_of funcName ':' + 1) % 2^64
  let e := find_first_of funcName '>' start
  (substr funcName start (size_sub e start)).map
    (fun nameView => FixedString.ofPtr nameView.length nameView)

/-- Modelled from the spec: SignatureProbe (`n<E>()` in the source, whose text
is produced by the compiler, not by code under `src/`). For a member `E` of an
enumeration the probe returns the function signature, documented in the
source's comments for MSVC as for example
`auto __cdecl EnumString::n<Fruit::apple>(void) noexcept`: a fixed prefix,
then the qualified name `Type::member` with a scope separator immediately
before the identifier and the generic-closing `>` immediately after it, then a
fixed colon-free tail. -/
def signature (typeName memberName : List Char) : List Char :=
  "auto __cdecl EnumString::n<".toList ++ typeName ++ "::".toList ++
    memberName ++ ">(void) noexcept".toList

/-- An eligible scoped enumeration, as the header requires it: members with
default values `0, 1, 2, ...` listed in declaration order, followed by a final
`enumSize` sentinel (not listed in `members`). -/
structure EnumType where
  name : List Char
  members : List (List Char)

/-- `std::to_underlying(EnumT::enumSize)`: with default valuation the sentinel
comes after `members.length` members, so its underlying value is exactly the
member count `N`. -/
def sentinelValue (T : EnumType) : Nat := T.members.length

/-- Modelled from the spec: the string `n<E>()` evaluates to when `E` is
`static_cast<EnumT>(i)`, i.e. the probe's signature for member `i`. -/
def n (T : EnumType) (i : Nat) : List Char :=
  signature T.name (T.members.getD i [])

/-- `enumName<EnumT, E>` from line 125: the single per-member constexpr
`FixedString` holding member `i`'s extracted name. (`toEnumName` never throws
on probe output; the default is unreachable there.) -/
def enumName (T : EnumType) (i : Nat) : FixedString :=
  (toEnumName (n T i)).getD ⟨[]⟩

/-- `generateEnumNames<EnumT>(std::index_sequence<I...>)` from lines 129-133:
the array whose element `i` is the `std::string_view` referencing
`enumName<EnumT, static_cast<EnumT>(I)>`, for `I = 0, ..., N-1`. -/
def generateEnumNames (T : EnumType) : List (List Char) :=
  (List.range (sentinelValue T)).map (fun i => (enumName T i).view)

/-- `enumNames<EnumT>` from line 137: the memoized storage location for the
generated array (an `inline constexpr` variable, one per type). -/
def enumNames (T : EnumType) : List (List Char) := generateEnumNames T

/-- `makeEnumString<EnumT>()` from lines 140-144: returns `enumNames<EnumT>`. -/
def makeEnumString (T : EnumType) : List (List Char) := enumNames T

/-- A candidate type presented to the `SizedEnum` concept: whether it is a
scoped enumeration (`std::is_scoped_enum_v`), plus its declared member
identifiers in order (including any sentinel), with default valuation. -/
structure CandidateType where
  name : List Char
  isScopedEnum : Bool
  memberNames : List (List Char)

/-- The `SizedEnum` concept from lines 35-38: `std::is_scoped_enum_v<EnumT>`
and the requires-expression `EnumT::enumSize`, i.e. name lookup of a member
called `enumSize` succeeds (anywhere in the declaration, not only last). -/
def SizedEnum (c : CandidateType) : Bool :=
  c.isScopedEnum && c.memberNames.contains "enumSize".toList

/-- The enumeration data a passing candidate contributes: with default
valuation, `to_underlying(enumSize)` is the number of members declared before
`enumSize`, and those members are the named ones the table covers. -/
def CandidateType.toEnum (c : CandidateType) : EnumType :=
  ⟨c.name, c.memberNames.takeWhile (fun m => !(m = "enumSize".toList))⟩

/-- Instantiating `makeEnumString<EnumT>()` behind the concept gate: a type
failing `SizedEnum` is rejected at translation time and no table exists for
it (modelled as `none`). -/
def makeEnumStringChecked (c : CandidateType) : Option (List (List Char)) :=
  if SizedEnum c then some (makeEnumString c.toEnum) else none

/-- The `Fruit` enumeration from `main.cpp` lines 16-34: fifteen members with
default values and the `enumSize` sentinel valued 15. -/
def Fruit : EnumType :=
  ⟨"Fruit".toList,
   ["apple".toList, "banana".toList, "cherry".toList, "grape".toList,
    "grapefruit".toList, "kiwi".toList, "lemon".toList, "lime".toList,
    "melon".toList, "orange".toList, "pear".toList, "pineapple".toList,
    "plum".toList, "raspberry".toList, "strawberry".toList]⟩

/-- The `std::format` specifier `{:2}` applied to an index below 100: decimal
digits right-aligned in a field of width 2 (the demo's indices are 0..14). -/
def format2 (i : Nat) : List Char :=
  if i < 10 then [' ', Char.ofNat (48 + i)]
  else [Char.ofNat (48 + i / 10), Char.ofNat (48 + i % 10)]

/-- The lines `main` (in `main.cpp` lines 36-46) writes to standard output.
`std::println` appends a newline to its formatted text, so the header call
whose format string itself ends in a newline emits the header line and then
one empty line; the loop over `std::views::enumerate(fruitNames)` then emits
one line per member. -/
def mainOutput : List (List Char) :=
  let fruitNames := makeEnumString Fruit
  "List of fruits:".toList :: [] ::
    ((List.range fruitNames.length).zip fruitNames).map
      (fun p => format2 p.1 ++ ": ".toList ++ p.2)

/-- `main` has no return statement, so it returns 0: the process exit
status. -/
def mainExitStatus : Nat := 0

/-- The extraction algorithm as the spec's words describe it, for comparison
with `toEnumName`: `end` is the position of the first generic-closing token,
`start` the position immediately following the last scope-separator token
occurring before it; result is `signature[start:end]` (undefined — `none` —
when either token is missing). -/
def extractSpec (s : List Char) : Option (List Char) :=
  match List.findIdx? (fun c => c = '>') s with
  | none => none
  | some e =>
      match ((List.range e).filter (fun i => s.getD i ' ' = ':')).getLast? with
      | none => none
      | some k => some ((s.drop (k + 1)).take (e - (k + 1)))

/-- The output shape the claim describes for the demo: the header line
immediately followed by the fifteen member lines. -/
def claimedFruitOutput : List (List Char) :=
  "List of fruits:".toList ::
    ((List.range 15).zip (makeEnumString Fruit)).map
      (fun p => format2 p.1 ++ ": ".toList ++ p.2)

/-- Position of the last scope-separator token anywhere in the string, from
the amended description of the extraction algorithm. -/
def lastColon : List Char → Option Nat
  | [] => none
  | x :: xs =>
      match lastColon xs with
      | some k => some (k + 1)
      | none => if x = ':' then some 0 else none

/-- Position of the first generic-closing token in a string, from the amended
description of the extraction algorithm. -/
def firstGt : List Char → Option Nat
  | [] => none
  | x :: xs => if x = '>' then some 0 else (firstGt xs).map (fun k => k + 1)

/-- Amended start position: immediately after the last scope-separator token
in the whole string, or 0 when the string has none. -/
def amendedStart (s : List Char) : Nat :=
  ((lastColon s).map (fun k => k + 1)).getD 0

/-- Amended end position: the first generic-closing token at or after `start`,
or the string's end when there is none. -/
def amendedStop (s : List Char) (start : Nat) : Nat :=
  ((firstGt (s.drop start)).map (fun j => start + j)).getD s.length

/-- The amended extraction description: `signature[start:end]` for the
amended `start` and `end` positions. -/
def extractAmended (s : List Char) : List Char :=
  (s.drop (amendedStart s)).take (amendedStop s (amendedStart s) - amendedStart s)

/-! ## Helper lemmas about the search primitives -/

lemma findLastAux_append (xs ys : List Char) (c : Char) (i acc : Nat) :
    findLastAux (xs ++ ys) c i acc =
      findLastAux ys c (i + xs.length) (findLastAux xs c i acc) := by
  induction xs generalizing i acc with
  | nil => simp [findLastAux]
  | cons a t ih =>
      simp only [List.cons_append, findLastAux, List.length_cons, List.append_eq]
      rw [ih]
      congr 1
      omega

lemma findLastAux_of_not_mem (xs : List Char) (c : Char) (i acc : Nat)
    (h : ∀ x ∈ xs, x ≠ c) : findLastAux xs c i acc = acc := by
  induction xs generalizing i acc with
  | nil => rfl
  | cons a t ih =>
      have ha : a ≠ c := h a (List.mem_cons_self a t)
      simp only [findLastAux, if_neg ha]
      exact ih (i + 1) acc (fun x hx => h x (List.mem_cons_of_mem a hx))

lemma find_last_of_decomp (xs ys : List Char) (c : Char)
    (h : ∀ x ∈ ys, x ≠ c) : find_last_of (xs ++ c :: ys) c = xs.length := by
  unfold find_last_of
  rw [show xs ++ c :: ys = (xs ++ [c]) ++ ys by simp,
      findLastAux_append, findLastAux_of_not_mem ys c _ _ h,
      findLastAux_append]
  simp [findLastAux]

lemma find_last_of_of_not_mem (s : List Char) (c : Char)
    (h : ∀ x ∈ s, x ≠ c) : find_last_of s c = npos :=
  findLastAux_of_not_mem s c 0 npos h

lemma findFirstAux_of_not_mem (xs : List Char) (c : Char) (i : Nat)
    (h : ∀ x ∈ xs, x ≠ c) : findFirstAux xs c i = npos := by
  induction xs generalizing i with
  | nil => rfl
  | cons a t ih =>
      have ha : a ≠ c := h a (List.mem_cons_self a t)
      simp only [findFirstAux, if_neg ha]
      exact ih (i + 1) (fun x hx => h x (List.mem_cons_of_mem a hx))

lemma findFirstAux_decomp (xs ys : List Char) (c : Char) (i : Nat)
    (h : ∀ x ∈ xs, x ≠ c) : findFirstAux (xs ++ c :: ys) c i = i + xs.length := by
  induction xs generalizing i with
  | nil => simp [findFirstAux]
  | cons a t ih =>
      have ha : a ≠ c := h a (List.mem_cons_self a t)
      simp only [List.cons_append, findFirstAux, if_neg ha, List.length_cons,
        List.append_eq]
      rw [ih (i + 1) (fun x hx => h x (List.mem_cons_of_mem a hx))]
      omega

lemma find_first_of_decomp (s : List Char) (c : Char) (pos : Nat)
    (xs ys : List Char) (hd : s.drop pos = xs ++ c :: ys)
    (hxs : ∀ x ∈ xs, x ≠ c) : find_first_of s c pos = pos + xs.length := by
  unfold find_first_of
  rw [hd]
  exact findFirstAux_decomp xs ys c pos hxs

lemma find_first_of_of_not_mem (s : List Char) (c : Char) (pos : Nat)
    (h : ∀ x ∈ s.drop pos, x ≠ c) : find_first_of s c pos = npos :=
  findFirstAux_of_not_mem (s.drop pos) c pos h

/-- The last-occurrence decomposition of a list around a member. -/
lemma exists_last_decomp (s : List Char) (c : Char) (h : c ∈ s) :
    ∃ xs ys, s = xs ++ c :: ys ∧ ∀ x ∈ ys, x ≠ c := by
  induction s with
  | nil => cases h
  | cons a t ih =>
      by_cases hc : c ∈ t
      · obtain ⟨xs, ys, h1, h2⟩ := ih hc
        exact ⟨a :: xs, ys, by simp [h1], h2⟩
      · have ha : a = c := by
          rcases List.mem_cons.mp h with h1 | h2
          · exact h1.symm
          · exact absurd h2 hc
        refine ⟨[], t, by simp [ha], ?_⟩
        intro x hx hxc
        exact hc (hxc ▸ hx)

/-- The extraction computation on a string of the well-formed shape
`pre ++ ":" ++ name ++ ">" ++ post` where the identifier contains neither
delimiter token and the tail after the closing token contains no scope
separator: `toEnumName` yields exactly `name`. -/
theorem toEnumName_signature_shape (pre name post : List Char)
    (hn : ∀ x ∈ name, x ≠ ':' ∧ x ≠ '>')
    (hp : ∀ x ∈ post, x ≠ ':')
    (hlen : (pre ++ ':' :: (name ++ '>' :: post)).length < 2^64) :
    toEnumName (pre ++ ':' :: (name ++ '>' :: post)) = some ⟨name⟩ := by
  set s := pre ++ ':' :: (name ++ '>' :: post) with hs
  have hlast : find_last_of s ':' = pre.length := by
    apply find_last_of_decomp
    intro x hx
    rcases List.mem_append.mp hx with h1 | h2
    · exact (hn x h1).1
    · rcases List.mem_cons.mp h2 with h3 | h4
      · rw [h3]; decide
      · exact hp x h4
  have hstart_le : pre.length + 1 ≤ s.length := by
    simp only [hs, List.length_append, List.length_cons]
    omega
  have hstartmod : (find_last_of s ':' + 1) % 2^64 = pre.length + 1 := by
    rw [hlast]
    exact Nat.mod_eq_of_lt (lt_of_le_of_lt hstart_le hlen)
  have hdrop : s.drop (pre.length + 1) = name ++ '>' :: post := by
    rw [hs, show pre ++ ':' :: (name ++ '>' :: post) =
          (pre ++ [':']) ++ (name ++ '>' :: post) by simp]
    exact List.drop_left' (by simp)
  have hfirst : find_first_of s '>' (pre.length + 1) =
      pre.length + 1 + name.length :=
    find_first_of_decomp s '>' (pre.length + 1) name post hdrop
      (fun x hx => (hn x hx).2)
  have hn64 : name.length < 2^64 := by
    have hle : name.length ≤ s.length := by
      simp only [hs, List.length_append, List.length_cons]
      omega
    omega
  have hsub : size_sub (pre.length + 1 + name.length) (pre.length + 1) =
      name.length := by
    unfold size_sub
    rw [show 2^64 + (pre.length + 1 + name.length) - (pre.length + 1) =
          2^64 + name.length by omega, Nat.add_mod_left]
    exact Nat.mod_eq_of_lt hn64
  have hsubstr : substr s (pre.length + 1) name.length = some name := by
    unfold substr
    rw [if_pos hstart_le, hdrop, List.take_left]
  simp only [toEnumName, hstartmod, hfirst, hsub, hsubstr, Option.map_some]
  simp [FixedString.ofPtr]

/-- The start and end positions the extractor computes on a string of the
well-formed shape `pre ++ ":" ++ name ++ ">" ++ post`. -/
lemma shape_positions (pre name post : List Char)
    (hn : ∀ x ∈ name, x ≠ ':' ∧ x ≠ '>')
    (hp : ∀ x ∈ post, x ≠ ':')
    (hlen : (pre ++ ':' :: (name ++ '>' :: post)).length < 2^64) :
    (find_last_of (pre ++ ':' :: (name ++ '>' :: post)) ':' + 1) % 2^64 =
        pre.length + 1 ∧
      find_first_of (pre ++ ':' :: (name ++ '>' :: post)) '>' (pre.length + 1) =
        pre.length + 1 + name.length := by
  set s := pre ++ ':' :: (name ++ '>' :: post) with hs
  have hlast : find_last_of s ':' = pre.length := by
    apply find_last_of_decomp
    intro x hx
    rcases List.mem_append.mp hx with h1 | h2
    · exact (hn x h1).1
    · rcases List.mem_cons.mp h2 with h3 | h4
      · rw [h3]; decide
      · exact hp x h4
  have hstart_le : pre.length + 1 ≤ s.length := by
    simp only [hs, List.length_append, List.length_cons]
    omega
  have hdrop : s.drop (pre.length + 1) = name ++ '>' :: post := by
    rw [hs, show pre ++ ':' :: (name ++ '>' :: post) =
          (pre ++ [':']) ++ (name ++ '>' :: post) by simp]
    exact List.drop_left' (by simp)
  refine ⟨?_, ?_⟩
  · rw [hlast]
    exact Nat.mod_eq_of_lt (lt_of_le_of_lt hstart_le hlen)
  · exact find_first_of_decomp s '>' (pre.length + 1) name post hdrop
      (fun x hx => (hn x hx).2)

/-- The probe's signature decomposed around the delimiters of the member
identifier. -/
lemma signature_shape (tn mn : List Char) :
    signature tn mn = ("auto __cdecl EnumString::n<".toList ++ tn ++ [':']) ++
      ':' :: (mn ++ '>' :: "(void) noexcept".toList) := by
  unfold signature
  rw [show ("::".toList : List Char) = [':', ':'] from by decide,
      show (">(void) noexcept".toList : List Char) =
        '>' :: "(void) noexcept".toList from by decide]
  simp

/-- Element access into the generated table. -/
lemma getD_map_range {f : Nat → List Char} {N i : Nat} (hi : i < N) :
    ((List.range N).map f).getD i [] = f i := by
  simp [List.getD_eq_getElem?_getD, List.getElem?_range hi]

/-- The per-member buffer holds exactly the member's identifier, whenever that
identifier contains neither delimiter token. -/
lemma enumName_eq (T : EnumType) (i : Nat)
    (hm : ∀ x ∈ T.members.getD i [], x ≠ ':' ∧ x ≠ '>')
    (hlen : (n T i).length < 2^64) :
    enumName T i = ⟨T.members.getD i []⟩ := by
  unfold enumName n
  unfold n at hlen
  rw [signature_shape T.name (T.members.getD i [])] at hlen ⊢
  rw [toEnumName_signature_shape _ _ _ hm (by decide) hlen]
  rfl

/-- The first-occurrence decomposition of a list around a member. -/
lemma exists_first_decomp (l : List Char) (c : Char) (h : c ∈ l) :
    ∃ as bs, l = as ++ c :: bs ∧ ∀ x ∈ as, x ≠ c := by
  induction l with
  | nil => cases h
  | cons a t ih =>
      by_cases hac : a = c
      · exact ⟨[], t, by simp [hac], by simp⟩
      · have hct : c ∈ t := by
          rcases List.mem_cons.mp h with h1 | h2
          · exact absurd h1.symm hac
          · exact h2
        obtain ⟨as, bs, h1, h2⟩ := ih hct
        refine ⟨a :: as, bs, by simp [h1], ?_⟩
        intro x hx
        rcases List.mem_cons.mp hx with h3 | h4
        · rw [h3]; exact hac
        · exact h2 x h4

lemma lastColon_of_not_mem (s : List Char) (h : ∀ x ∈ s, x ≠ ':') :
    lastColon s = none := by
  induction s with
  | nil => rfl
  | cons a t ih =>
      have ha : a ≠ ':' := h a (List.mem_cons_self a t)
      simp only [lastColon, ih (fun x hx => h x (List.mem_cons_of_mem a hx)),
        if_neg ha]

lemma lastColon_decomp (xs ys : List Char) (h : ∀ x ∈ ys, x ≠ ':') :
    lastColon (xs ++ ':' :: ys) = some xs.length := by
  induction xs with
  | nil => simp [lastColon, lastColon_of_not_mem ys h]
  | cons a t ih => simp [lastColon, ih]

lemma firstGt_of_not_mem (s : List Char) (h : ∀ x ∈ s, x ≠ '>') :
    firstGt s = none := by
  induction s with
  | nil => rfl
  | cons a t ih =>
      have ha : a ≠ '>' := h a (List.mem_cons_self a t)
      simp only [firstGt, if_neg ha]
      rw [ih (fun x hx => h x (List.mem_cons_of_mem a hx))]
      rfl

lemma firstGt_decomp (as bs : List Char) (h : ∀ x ∈ as, x ≠ '>') :
    firstGt (as ++ '>' :: bs) = some as.length := by
  induction as with
  | nil => simp [firstGt]
  | cons a t ih =>
      have ha : a ≠ '>' := h a (List.mem_cons_self a t)
      simp only [List.cons_append, firstGt, if_neg ha, List.append_eq,
        List.length_cons]
      rw [ih (fun x hx => h x (List.mem_cons_of_mem a hx))]
      rfl

/-- When no generic-closing token is found, `end` is `npos` and the `size_t`
difference `end - start` reaches past the string, so the clamping `substr`
returns the whole remainder of the string. -/
lemma substr_to_end (s : List Char) (start : Nat) (hle : start ≤ s.length)
    (h64 : s.length < 2^64) :
    substr s start (size_sub npos start) = some (s.drop start) := by
  have h1 : size_sub npos start = npos - start := by
    unfold size_sub npos
    rw [show 2^64 + (2^64 - 1) - start = 2^64 + (2^64 - 1 - start) from by omega,
      Nat.add_mod_left]
    exact Nat.mod_eq_of_lt (by omega)
  unfold substr
  rw [if_pos hle, h1]
  congr 1
  apply List.take_of_length_le
  simp only [List.length_drop]
  unfold npos
  omega

/-! ## Claim theorems -/

/-- C1: for every eligible enumeration type `T` with sentinel value `N` and
every index `i` in `[0, N)`, the `i`-th element of the table returned by
`makeEnumString` equals the literal identifier spelling of `T`'s member with
value `i` — no qualification, no surrounding whitespace — in ascending
member-index order (element `i` names member `i`). Identifiers contain
neither delimiter token, and lengths stay below `2^64`. -/
theorem makeEnumString_spells_member (T : EnumType) (i : Nat)
    (hi : i < sentinelValue T)
    (hm : ∀ m ∈ T.members, ∀ x ∈ m, x ≠ ':' ∧ x ≠ '>')
    (hlen : (n T i).length < 2^64) :
    (makeEnumString T).getD i [] = T.members.getD i [] := by
  unfold makeEnumString enumNames generateEnumNames
  rw [getD_map_range hi]
  have hmem : T.members.getD i [] ∈ T.members := by
    rw [List.getD_eq_getElem?_getD, List.getElem?_eq_getElem hi]
    exact List.getElem_mem hi
  rw [enumName_eq T i (hm _ hmem) hlen]
  rfl

/-- Witness for C1 at the demo enumeration: member 0 of `Fruit`. -/
theorem makeEnumString_spells_member_witness :
    0 < sentinelValue Fruit ∧
      (makeEnumString Fruit).getD 0 [] = Fruit.members.getD 0 [] :=
  ⟨by decide,
   makeEnumString_spells_member Fruit 0 (by decide) (by decide) (by decide)⟩

/-- C2: for every eligible enumeration type whose sentinel has integer value
`N`, the returned table has length exactly `N`; with zero named members
(sentinel alone, valued 0) the table is empty. -/
theorem makeEnumString_length_eq_sentinel (T : EnumType) :
    (makeEnumString T).length = sentinelValue T ∧
      (sentinelValue T = 0 → makeEnumString T = []) := by
  constructor
  · simp [makeEnumString, enumNames, generateEnumNames]
  · intro h
    simp [makeEnumString, enumNames, generateEnumNames, h]

/-- Witness for C2 at the boundary enumeration with sentinel alone. -/
theorem makeEnumString_length_eq_sentinel_witness :
    makeEnumString ⟨"Empty".toList, []⟩ = [] :=
  (makeEnumString_length_eq_sentinel ⟨"Empty".toList, []⟩).2 (by decide)

/-- C4 counterexample: the `SizedEnum` concept only checks that a member
named `enumSize` exists; a scoped enumeration whose `enumSize` is not its
final member still passes, so "passes exactly when ... exposing a final
member acting as a count sentinel" fails as stated. -/
theorem sizedEnum_passes_nonfinal_sentinel :
    SizedEnum ⟨"E".toList, true, ["enumSize".toList, "aardvark".toList]⟩ = true ∧
      ¬((["enumSize".toList, "aardvark".toList] : List (List Char)).getLast? =
        some ("enumSize".toList)) := by decide

/-- C4 amended: the eligibility check passes a candidate exactly when it is a
scoped (not integer-convertible) enumeration kind exposing a member named
`enumSize` (the count sentinel, conventionally final); otherwise
instantiation fails at translation time and no table is produced. -/
theorem sizedEnum_gate_iff (c : CandidateType) :
    (∃ t, makeEnumStringChecked c = some t) ↔
      (c.isScopedEnum = true ∧ "enumSize".toList ∈ c.memberNames) := by
  unfold makeEnumStringChecked SizedEnum
  by_cases h1 : c.isScopedEnum <;>
    by_cases h2 : "enumSize".toList ∈ c.memberNames <;>
      simp [h1, h2]

/-- C5: `makeEnumString` is pure from the caller's perspective: two calls
yield value-identical tables, and both return the single memoized storage
`enumNames` (computed once per type). -/
theorem makeEnumString_idempotent_memoized (T : EnumType) :
    makeEnumString T = makeEnumString T ∧ makeEnumString T = enumNames T :=
  ⟨rfl, rfl⟩

/-- C7: constructing a `FixedString` of capacity `L` from a pointer into a
source of at least `L` characters copies exactly `L` characters; its
read-only view is exactly those `L` characters (exact length, no
terminator); two buffers are equal iff their contents are equal. -/
theorem fixedString_exact_copy (L : Nat) (src : List Char)
    (h : L ≤ src.length) :
    (FixedString.ofPtr L src).view.length = L ∧
      (FixedString.ofPtr L src).view = src.take L ∧
      (∀ a b : FixedString, a = b ↔ a.view = b.view) := by
  refine ⟨?_, rfl, ?_⟩
  · simp only [FixedString.ofPtr, FixedString.view, List.length_take]
    omega
  · intro a b
    constructor
    · intro hab
      rw [hab]
    · intro hab
      cases a
      cases b
      simpa [FixedString.view] using hab

/-- Witness for C7, mirroring the source's `static_assert` that builds
`"test"` from a pointer into the middle of `"retested"`. -/
theorem fixedString_exact_copy_witness :
    4 ≤ (("retested".toList).drop 2).length ∧
      (FixedString.ofPtr 4 (("retested".toList).drop 2)).view =
        (("retested".toList).drop 2).take 4 :=
  ⟨by decide,
   (fixedString_exact_copy 4 (("retested".toList).drop 2) (by decide)).2.1⟩

/-- C10: each element of the returned table is the view of the single
per-member constexpr buffer `enumName`, and the table returned is the value
of the one memoized `enumNames` storage shared by every call. -/
theorem makeEnumString_views_enumName (T : EnumType) (i : Nat)
    (hi : i < sentinelValue T) :
    (makeEnumString T).getD i [] = (enumName T i).view ∧
      makeEnumString T = enumNames T := by
  refine ⟨?_, rfl⟩
  unfold makeEnumString enumNames generateEnumNames
  exact getD_map_range hi

/-- Witness for C10 at the demo enumeration, member 3. -/
theorem makeEnumString_views_enumName_witness :
    3 < sentinelValue Fruit ∧
      ((makeEnumString Fruit).getD 3 [] = (enumName Fruit 3).view ∧
        makeEnumString Fruit = enumNames Fruit) :=
  ⟨by decide, makeEnumString_views_enumName Fruit 3 (by decide)⟩

/-- C3 counterexample: on the input string `a:b>c:d` the code's extractor
starts after the last scope separator of the entire string (which lies past
the first generic-closing token) and, finding no later generic-closing token,
extends to the end of the string, yielding `d`; the algorithm the claim
states (last scope separator before the first subsequent generic-closing
token) yields `b`. -/
theorem toEnumName_differs_from_spec_algorithm :
    toEnumName ("a:b>c:d".toList) = some ⟨"d".toList⟩ ∧
      extractSpec ("a:b>c:d".toList) = some ("b".toList) ∧
      ("d".toList : List Char) ≠ "b".toList := by
  decide

/-- C3 amended: for every input signature string, the extraction returns
`signature[start:end]` where `start` is the position immediately following
the last scope-separator token of the entire string (0 when there is none)
and `end` is the position of the first generic-closing token at or after
`start` (the string's end when there is none). -/
theorem toEnumName_amended_slice (s : List Char) (h : s.length < 2^64) :
    toEnumName s = some ⟨extractAmended s⟩ := by
  have hstart : ∃ start, (find_last_of s ':' + 1) % 2^64 = start ∧
      amendedStart s = start ∧ start ≤ s.length := by
    by_cases hc : ':' ∈ s
    · obtain ⟨xs, ys, hdec, hys⟩ := exists_last_decomp s ':' hc
      have hlen : s.length = xs.length + 1 + ys.length := by
        rw [hdec]
        simp only [List.length_append, List.length_cons]
        omega
      refine ⟨xs.length + 1, ?_, ?_, by omega⟩
      · rw [hdec, find_last_of_decomp xs ys ':' hys]
        exact Nat.mod_eq_of_lt (by omega)
      · unfold amendedStart
        rw [hdec, lastColon_decomp xs ys hys]
        rfl
    · have hnc : ∀ x ∈ s, x ≠ ':' := fun x hx hxc => hc (hxc ▸ hx)
      refine ⟨0, ?_, ?_, Nat.zero_le _⟩
      · rw [find_last_of_of_not_mem s ':' hnc]
        decide
      · unfold amendedStart
        rw [lastColon_of_not_mem s hnc]
        rfl
  obtain ⟨start, h1, h2, hle⟩ := hstart
  by_cases hg : '>' ∈ s.drop start
  · obtain ⟨as, bs, hdec, has⟩ := exists_first_decomp (s.drop start) '>' hg
    have hff : find_first_of s '>' start = start + as.length :=
      find_first_of_decomp s '>' start as bs hdec has
    have hdl : (s.drop start).length = s.length - start := List.length_drop start s
    have has64 : as.length < 2^64 := by
      have hh := congrArg List.length hdec
      simp only [List.length_append, List.length_cons] at hh
      omega
    have hsub : size_sub (start + as.length) start = as.length := by
      unfold size_sub
      rw [show 2^64 + (start + as.length) - start = 2^64 + as.length from by omega,
        Nat.add_mod_left]
      exact Nat.mod_eq_of_lt has64
    have hstop : amendedStop s start = start + as.length := by
      unfold amendedStop
      rw [hdec, firstGt_decomp as bs has]
      rfl
    simp only [toEnumName, extractAmended, h1, h2, hff, hsub, hstop]
    unfold substr
    rw [if_pos hle, hdec, show start + as.length - start = as.length from by omega,
      List.take_left]
    simp [FixedString.ofPtr]
  · have hng : ∀ x ∈ s.drop start, x ≠ '>' := fun x hx hxg => hg (hxg ▸ hx)
    have hff : find_first_of s '>' start = npos :=
      find_first_of_of_not_mem s '>' start hng
    have hstop : amendedStop s start = s.length := by
      unfold amendedStop
      rw [firstGt_of_not_mem _ hng]
      rfl
    simp only [toEnumName, extractAmended, h1, h2, hff, hstop]
    rw [substr_to_end s start hle h]
    have htake : (s.drop start).take (s.length - start) = s.drop start := by
      apply List.take_of_length_le
      simp [List.length_drop]
    rw [htake]
    simp [FixedString.ofPtr]

/-- Witness for the amended C3 theorem at the counterexample input. -/
theorem toEnumName_amended_slice_witness :
    ("a:b>c:d".toList.length < 2^64) ∧
      toEnumName ("a:b>c:d".toList) = some ⟨extractAmended ("a:b>c:d".toList)⟩ :=
  ⟨by decide, toEnumName_amended_slice ("a:b>c:d".toList) (by decide)⟩

/-- C6: on every signature the probe's contract provides (the qualified
identifier sits between a scope separator and a generic-closing token inside
the instantiation description `signature`), the unchecked position
arithmetic yields `start ≤ end` with both positions inside the string, and
the unvalidated substring operation is well-defined — its error branch is
never exercised. -/
theorem extractor_positions_safe (tn mn : List Char)
    (hmn : ∀ x ∈ mn, x ≠ ':' ∧ x ≠ '>')
    (hlen : (signature tn mn).length < 2^64) :
    (find_last_of (signature tn mn) ':' + 1) % 2^64 ≤
        find_first_of (signature tn mn) '>'
          ((find_last_of (signature tn mn) ':' + 1) % 2^64) ∧
      find_first_of (signature tn mn) '>'
          ((find_last_of (signature tn mn) ':' + 1) % 2^64) <
        (signature tn mn).length ∧
      (substr (signature tn mn)
          ((find_last_of (signature tn mn) ':' + 1) % 2^64)
          (size_sub
            (find_first_of (signature tn mn) '>'
              ((find_last_of (signature tn mn) ':' + 1) % 2^64))
            ((find_last_of (signature tn mn) ':' + 1) % 2^64))).isSome =
        true := by
  rw [signature_shape tn mn] at hlen ⊢
  obtain ⟨h1, h2⟩ := shape_positions _ mn _ hmn (by decide) hlen
  rw [h1, h2]
  refine ⟨by omega, ?_, ?_⟩
  · simp only [List.length_append, List.length_cons]
    omega
  · have hle : ("auto __cdecl EnumString::n<".toList ++ tn ++ [':']).length + 1 ≤
        (("auto __cdecl EnumString::n<".toList ++ tn ++ [':']) ++
          ':' :: (mn ++ '>' :: "(void) noexcept".toList)).length := by
      simp only [List.length_append, List.length_cons]
      omega
    simp [substr, hle]
    omega

/-- Witness for C6 at the demo probe signature for `Fruit::apple`. -/
theorem extractor_positions_safe_witness :
    (∀ x ∈ "apple".toList, x ≠ ':' ∧ x ≠ '>') ∧
      ((find_last_of (signature ("Fruit".toList) ("apple".toList)) ':' + 1) % 2^64 ≤
        find_first_of (signature ("Fruit".toList) ("apple".toList)) '>'
          ((find_last_of (signature ("Fruit".toList) ("apple".toList)) ':' + 1) % 2^64) ∧
      find_first_of (signature ("Fruit".toList) ("apple".toList)) '>'
          ((find_last_of (signature ("Fruit".toList) ("apple".toList)) ':' + 1) % 2^64) <
        (signature ("Fruit".toList) ("apple".toList)).length ∧
      (substr (signature ("Fruit".toList) ("apple".toList))
          ((find_last_of (signature ("Fruit".toList) ("apple".toList)) ':' + 1) % 2^64)
          (size_sub
            (find_first_of (signature ("Fruit".toList) ("apple".toList)) '>'
              ((find_last_of (signature ("Fruit".toList) ("apple".toList)) ':' + 1) % 2^64))
            ((find_last_of (signature ("Fruit".toList) ("apple".toList)) ':' + 1) % 2^64))).isSome =
        true) :=
  ⟨by decide,
   extractor_positions_safe ("Fruit".toList) ("apple".toList) (by decide) (by decide)⟩

/-- C8 counterexample: `std::println("List of fruits:\n")` appends its own
newline after a format string that already ends in one, so the real output
has an empty line between the header and the member lines; the output shape
the claim describes — the header immediately followed by the fifteen member
lines — is therefore not the program's output. -/
theorem mainOutput_not_header_then_members :
    mainOutput ≠ claimedFruitOutput ∧ mainOutput.getD 1 ("x".toList) = [] := by
  decide

/-- C8 amended: `makeEnumString` on the 15-member fruit enumeration returns a
15-element table with element 0 `apple` and element 14 `strawberry`; the demo
prints the header line `List of fruits:`, then one empty line, then exactly
15 lines, each a 2-character right-aligned index, `: `, and the name, in
ascending index order, and exits with status 0. -/
theorem fruit_demo_output :
    (makeEnumString Fruit).length = 15 ∧
      (makeEnumString Fruit).getD 0 [] = "apple".toList ∧
      (makeEnumString Fruit).getD 14 [] = "strawberry".toList ∧
      mainOutput = "List of fruits:".toList :: [] ::
        ((List.range 15).zip (makeEnumString Fruit)).map
          (fun p => format2 p.1 ++ ": ".toList ++ p.2) ∧
      mainExitStatus = 0 := by
  refine ⟨by decide, by decide, by decide, by decide, rfl⟩

/-- C9: the extraction operation is total on every input string: it never
takes an error branch; when the string has no scope separator, the not-found
`npos` plus one wraps to 0 so extraction starts at the beginning; when no
generic-closing token occurs at or after `start`, the result extends to the
end of the string. -/
theorem toEnumName_total_wrap (s : List Char) (h : s.length < 2^64) :
    (toEnumName s).isSome = true ∧
      ((∀ x ∈ s, x ≠ ':') → (find_last_of s ':' + 1) % 2^64 = 0) ∧
      (find_first_of s '>' ((find_last_of s ':' + 1) % 2^64) = npos →
        toEnumName s = some ⟨s.drop ((find_last_of s ':' + 1) % 2^64)⟩) := by
  have hstart_le : (find_last_of s ':' + 1) % 2^64 ≤ s.length := by
    by_cases hc : ':' ∈ s
    · obtain ⟨xs, ys, hdec, hys⟩ := exists_last_decomp s ':' hc
      have hlen : s.length = xs.length + 1 + ys.length := by
        rw [hdec]
        simp only [List.length_append, List.length_cons]
        omega
      rw [hdec, find_last_of_decomp xs ys ':' hys, Nat.mod_eq_of_lt (by omega)]
      rw [← hdec]
      omega
    · rw [find_last_of_of_not_mem s ':' (fun x hx hxc => hc (hxc ▸ hx))]
      have h0 : (npos + 1) % 2^64 = 0 := by decide
      rw [h0]
      exact Nat.zero_le _
  refine ⟨?_, ?_, ?_⟩
  · simp only [toEnumName, substr]
    rw [if_pos hstart_le]
    rfl
  · intro hnc
    rw [find_last_of_of_not_mem s ':' hnc]
    decide
  · intro he
    simp only [toEnumName, he]
    rw [substr_to_end s _ hstart_le h]
    simp [FixedString.ofPtr]

/-- Witness for C9 at an input with neither delimiter token. -/
theorem toEnumName_total_wrap_witness :
    ("abc".toList.length < 2^64) ∧
      ((toEnumName ("abc".toList)).isSome = true ∧
        ((∀ x ∈ "abc".toList, x ≠ ':') →
          (find_last_of ("abc".toList) ':' + 1) % 2^64 = 0) ∧
        (find_first_of ("abc".toList) '>'
            ((find_last_of ("abc".toList) ':' + 1) % 2^64) = npos →
          toEnumName ("abc".toList) =
            some ⟨("abc".toList).drop
              ((find_last_of ("abc".toList) ':' + 1) % 2^64)⟩)) :=
  ⟨by decide, toEnumName_total_wrap ("abc".toList) (by decide)⟩

end EnumString
